import Mathlib

/-!
Verification of `picard/formats/vorbis.py`: the VComment (Vorbis comment)
tag load/save normalizer, the embedded-picture decoding pipeline, and the
Ogg container-type detector.  Python strings are modelled as Lean `String`
(operating on the underlying `List Char`), raw tag dictionaries as
association lists `List (String × List String)` (a multi-valued map), and
the internal metadata record as a flattened list of `(name, value)` pairs
(Picard's `Metadata.items()` yields one pair per value of a multi-valued
field).  External collaborators that can fail (base64, the picture-block
parser, the cover-art constructor) are modelled as oracle functions
returning `Except`.
-/

namespace Vorbis

/-- Python `s.upper()` restricted to the ASCII mapping (`Char.toUpper`);
all tag names handled by the code are ASCII. -/
def upperStr (s : String) : String := String.mk (s.data.map Char.toUpper)

/-- Python `s.lower()` restricted to the ASCII mapping. -/
def lowerStr (s : String) : String := String.mk (s.data.map Char.toLower)

/-- Python `a.startswith(b)` on the underlying character lists. -/
def chStarts : List Char → List Char → Bool
  | [], _ => true
  | _ :: _, [] => false
  | p :: ps, c :: cs => p = c && chStarts ps cs

/-- Python `name.startswith(p)`. -/
def strStarts (s p : String) : Bool := chStarts p.data s.data

/-- Python `s.split(sep, 1)` on a single character separator: `none` when
the separator does not occur (the code's `except ValueError` branch),
otherwise the parts before and after the first occurrence. -/
def chSplitOnce (c : Char) : List Char → Option (List Char × List Char)
  | [] => none
  | x :: xs =>
    if x = c then some ([], xs)
    else match chSplitOnce c xs with
      | none => none
      | some (a, b) => some (x :: a, b)

/-- `splitOnce s c`: Python `s.split(c, 1)` (at most one split). -/
def splitOnce (s : String) (c : Char) : Option (String × String) :=
  match chSplitOnce c s.data with
  | none => none
  | some (a, b) => some (String.mk a, String.mk b)

/-- Python `s[n:]`. -/
def strDrop (s : String) (n : Nat) : String := String.mk (s.data.drop n)

/-- The backward parenthesis-depth scan of `VCommentFile._load` (lines
68–75): starting from `start = len(value) - 2` with `count = 1`, walk
backwards; `)` increments the depth, `(` decrements it; stop when the
depth reaches zero or the cursor reaches position 0.  Returns the final
`(count, start)` pair.  (Python's `start` can reach `-1` only when the
loop never runs, and the code then only tests `start > 0`, so truncated
`Nat` subtraction agrees with the Python `int` on every observed path.) -/
def parenLoop (v : List Char) : Nat → Nat → Nat × Nat
  | 0, start => (0, start)
  | count + 1, 0 => (count + 1, 0)
  | count + 1, start + 1 =>
    let c := v.getD (start + 1) ' '
    let count2 := if c = ')' then count + 2 else if c = '(' then count else count + 1
    parenLoop v count2 start

/-- Outcome of the load-direction normalization of one raw `(name, value)`
entry: `skip` models `continue`, `field` an internal `(name, value)` pair
handed to `metadata.add`, `image` routing of a `metadata_block_picture`
value to the picture decoder. -/
inductive InOutcome where
  | skip : InOutcome
  | field (name value : String) : InOutcome
  | image (value : String) : InOutcome
deriving DecidableEq, Repr

/-- Configuration and external helpers of the normalizer.
`sanitizeDateFn` models `picard.util.sanitize_date`; `ratingValueIn`
models `unicode(int(round(float(value) * (rating_steps - 1))))` and
`ratingValueOut` models `unicode(float(value) / (rating_steps - 1))`
(floating-point value transforms kept abstract; no claim depends on
them). -/
structure Ctx where
  ratingUserEmail : String
  sanitizeDateFn : String → String
  ratingValueIn : String → String
  ratingValueOut : String → String

/-- The `performer`/`comment` branch of `_load` (lines 64–78): append `:`
to the name; when the value ends in `)`, run the backward scan; when the
final `start` is positive, move `value[start+2:-1]` into the name as the
role and truncate the value to `value[:start]`. -/
def performerIn (name value : String) : InOutcome :=
  let v := value.data
  if v.getLast? = some ')' then
    let r := parenLoop v 1 (v.length - 2)
    if 0 < r.2 then
      .field (name ++ ":" ++ String.mk ((v.drop (r.2 + 2)).take (v.length - 1 - (r.2 + 2))))
        (String.mk (v.take r.2))
    else .field (name ++ ":") value
  else .field (name ++ ":") value

/-- The email part of a raw rating tag name: `name.split(':', 1)` with the
`except ValueError` branch yielding the empty email (lines 80–83). -/
def ratingEmail (name : String) : String :=
  match splitOnce name ':' with
  | some p => p.2
  | none => ""

/-- The forward translation table `VCommentFile.__translate`. -/
def translateFwd (n : String) : Option String :=
  if n = "musicbrainz_trackid" then some "musicbrainz_recordingid"
  else if n = "musicbrainz_releasetrackid" then some "musicbrainz_trackid"
  else none

/-- The reverse table `VCommentFile.__rtranslate` (inverse pairs). -/
def translateRev (n : String) : Option String :=
  if n = "musicbrainz_recordingid" then some "musicbrainz_trackid"
  else if n = "musicbrainz_trackid" then some "musicbrainz_releasetrackid"
  else none

/-- Load-direction normalization of one raw `(name, value)` entry: the
`elif` chain of `VCommentFile._load` (lines 60–118).  `hasTT`/`hasTD`
stand for `"totaltracks" in file.tags` / `"totaldiscs" in file.tags`. -/
def normalizeIn (ctx : Ctx) (hasTT hasTD : Bool) (name value : String) : InOutcome :=
  if name = "date" ∨ name = "originaldate" then
    .field name (ctx.sanitizeDateFn value)
  else if name = "performer" ∨ name = "comment" then
    performerIn name value
  else if strStarts name "rating" then
    if ratingEmail name ≠ ctx.ratingUserEmail then .skip
    else .field "~rating" (ctx.ratingValueIn value)
  else if name = "fingerprint" ∧ strStarts value "MusicMagic Fingerprint" then
    .field "musicip_fingerprint" (strDrop value 22)
  else if name = "tracktotal" then
    if hasTT then .skip else .field "totaltracks" value
  else if name = "disctotal" then
    if hasTD then .skip else .field "totaldiscs" value
  else if name = "metadata_block_picture" then
    .image value
  else match translateFwd name with
    | some n2 => .field n2 value
    | none => .field name value

/-- Outcome of the save-direction normalization of one internal
`(name, value)` field: `drop` models `continue` (private fields), `entry`
the raw pair appended to the output dictionary (before upper-casing the
name at insertion). -/
inductive OutOutcome where
  | drop : OutOutcome
  | entry (name value : String) : OutOutcome
deriving DecidableEq, Repr

/-- Save-direction normalization of one internal `(name, value)` field:
the `elif` chain of `VCommentFile._save` (lines 167–192). -/
def normalizeOut (ctx : Ctx) (name value : String) : OutOutcome :=
  if name = "~rating" then
    let n2 := if ctx.ratingUserEmail ≠ "" then "rating:" ++ ctx.ratingUserEmail else "rating"
    .entry n2 (ctx.ratingValueOut value)
  else if strStarts name "~" then .drop
  else if strStarts name "lyrics:" then .entry "lyrics" value
  else if name = "date" ∨ name = "originaldate" then .entry name (ctx.sanitizeDateFn value)
  else if strStarts name "performer:" ∨ strStarts name "comment:" then
    match splitOnce name ':' with
    | some p => if p.2 ≠ "" then .entry p.1 (value ++ " (" ++ p.2 ++ ")") else .entry p.1 value
    | none => .entry name value
  else if name = "musicip_fingerprint" then .entry "fingerprint" ("MusicMagic Fingerprint" ++ value)
  else match translateRev name with
    | some n2 => .entry n2 value
    | none => .entry name value

/-- Python `tags.setdefault(key, []).append(value)` on the association-list
model of the raw tag dictionary. -/
def setdefaultAppend : List (String × List String) → String → String → List (String × List String)
  | [], k, v => [(k, [v])]
  | (k2, vs) :: rest, k, v =>
    if k2 = k then (k2, vs ++ [v]) :: rest else (k2, vs) :: setdefaultAppend rest k v

/-- The values stored under a key of the raw tag dictionary (empty when
the key is absent). -/
def getVals : List (String × List String) → String → List String
  | [], _ => []
  | (k2, vs) :: rest, k => if k2 = k then vs else getVals rest k

/-- Python `key in tags` on the raw tag dictionary. -/
def hasKey (tags : List (String × List String)) (k : String) : Bool :=
  tags.any (fun p => p.1 = k)

/-- Python `name in metadata` on the flattened internal record. -/
def mdHas (md : List (String × String)) (k : String) : Bool :=
  md.any (fun p => p.1 = k)

/-- Modelled from the spec: `Metadata.__getitem__` (from `picard.metadata`,
which is not under `src/`) — the value of an internal field; for the
single-valued totals fields used by `_save` this is the field's unique
value, modelled as the first value stored under the name. -/
def mdGet : List (String × String) → String → String
  | [], _ => ""
  | (k2, v) :: rest, k => if k2 = k then v else mdGet rest k

/-- The main save loop of `_save` (lines 166–193): fold every internal
`(name, value)` pair through `normalizeOut` and insert surviving entries
under the upper-cased raw name (`tags.setdefault(name.upper(), []).append(value)`). -/
def mainPass (ctx : Ctx) (md : List (String × String)) : List (String × List String) :=
  md.foldl
    (fun tags p =>
      match normalizeOut ctx p.1 p.2 with
      | .drop => tags
      | .entry n v => setdefaultAppend tags (upperStr n) v)
    []

/-- The raw tag dictionary built by `_save` (lines 166–210): the main
pass, then the `TRACKTOTAL`/`DISCTOTAL` post-pass (lines 195–198), then —
for non-FLAC files — one `METADATA_BLOCK_PICTURE` value per image to be
saved (`encodedPics` models the base64-encoded serialized picture blocks;
for FLAC the pictures go to the native picture list instead, lines
200–210). -/
def saveTags (ctx : Ctx) (md : List (String × String)) (isFlac : Bool)
    (encodedPics : List String) : List (String × List String) :=
  let t1 := mainPass ctx md
  let t2 := if mdHas md "totaltracks" then setdefaultAppend t1 "TRACKTOTAL" (mdGet md "totaltracks") else t1
  let t3 := if mdHas md "totaldiscs" then setdefaultAppend t2 "DISCTOTAL" (mdGet md "totaldiscs") else t2
  if isFlac then t3
  else encodedPics.foldl (fun t p => setdefaultAppend t "METADATA_BLOCK_PICTURE" p) t3

/-- A decoded cover-art image: the origin tag passed to
`TagCoverArtImage(tag=...)` and an abstract payload standing for the
constructed image object. -/
structure Image where
  tag : String
  payload : String
deriving DecidableEq, Repr

/-- Oracles for the external image collaborators.  Failure of `b64decode`
models `binascii.Error` raised by `base64.standard_b64decode`; failure of
`parsePicture` models a `mutagen.flac.Picture` parse error; failure of
`coverFromPicture` / `coverFromData` models `CoverArtImageError` raised by
the `TagCoverArtImage` constructor — the only exception class the code
catches.  The success payloads are abstract. -/
structure ImgOps where
  b64decode : String → Except Unit String
  parsePicture : String → Except Unit String
  coverFromPicture : String → String → Except Unit String
  coverFromData : String → String → Except Unit String

/-- Decoding of the `metadata_block_picture` values during `_load` (lines
99–115): `base64` and the `Picture` parse run outside the `try`, so their
failures abort the load (`Except.error`); a `CoverArtImageError` from the
`TagCoverArtImage` constructor is caught, logged and the value skipped. -/
def loadMBP (ops : ImgOps) : List String → Except Unit (List Image)
  | [] => .ok []
  | v :: rest =>
    match ops.b64decode v with
    | .error e => .error e
    | .ok bytes =>
      match ops.parsePicture bytes with
      | .error e => .error e
      | .ok pic =>
        match ops.coverFromPicture "metadata_block_picture" pic with
        | .error _ => loadMBP ops rest
        | .ok pay =>
          match loadMBP ops rest with
          | .error e => .error e
          | .ok imgs => .ok (Image.mk "metadata_block_picture" pay :: imgs)

/-- Decoding of the native FLAC picture list (lines 119–133): only the
`TagCoverArtImage` constructor can fail, and its failure is caught. -/
def loadNative (ops : ImgOps) : List String → List Image
  | [] => []
  | p :: rest =>
    match ops.coverFromPicture "FLAC/PICTURE" p with
    | .error _ => loadNative ops rest
    | .ok pay => Image.mk "FLAC/PICTURE" pay :: loadNative ops rest

/-- Decoding of the legacy `COVERART` values (lines 136–150): the base64
decode runs inside the `try` but the `except` clause only catches
`CoverArtImageError`, so a base64 failure still aborts the load. -/
def loadLegacy (ops : ImgOps) : List String → Except Unit (List Image)
  | [] => .ok []
  | v :: rest =>
    match ops.b64decode v with
    | .error e => .error e
    | .ok bytes =>
      match ops.coverFromData "COVERART" bytes with
      | .error _ => loadLegacy ops rest
      | .ok pay =>
        match loadLegacy ops rest with
        | .error e => .error e
        | .ok imgs => .ok (Image.mk "COVERART" pay :: imgs)

/-- The image-decoding portion of `_load`: the `metadata_block_picture`
values (interleaved in the main tag loop), then — for FLAC — the native
picture list, then the legacy `COVERART` values, the last step guarded by
`"metadata_block_picture" not in file.tags` (line 136).  A missing
`COVERART` key raises `KeyError`, caught by `except KeyError: pass`,
which coincides with decoding the empty value list. -/
def loadImages (ops : ImgOps) (isFlac : Bool) (tags : List (String × List String))
    (nativePics : List String) : Except Unit (List Image) :=
  match loadMBP ops (getVals tags "metadata_block_picture") with
  | .error e => .error e
  | .ok mbp =>
    let nativeImgs := if isFlac then loadNative ops nativePics else []
    let legacyRes :=
      if hasKey tags "metadata_block_picture" then .ok []
      else loadLegacy ops (getVals tags "COVERART")
    match legacyRes with
    | .error e => .error e
    | .ok leg => .ok (mbp ++ nativeImgs ++ leg)

/-- The save-direction raw-name resolution `VCommentFile._get_tag_name`
(lines 233–250). -/
def getTagName (ctx : Ctx) (name : String) : Option String :=
  if name = "~rating" then
    if ctx.ratingUserEmail ≠ "" then some ("rating:" ++ ctx.ratingUserEmail) else some "rating"
  else if strStarts name "~" then none
  else if strStarts name "lyrics:" then some "lyrics"
  else if strStarts name "performer:" ∨ strStarts name "comment:" then
    match splitOnce name ':' with
    | some p => some p.1
    | none => some name
  else if name = "musicip_fingerprint" then some "fingerprint"
  else match translateRev name with
    | some n2 => some n2
    | none => some name

/-- Python's `for item in lst: if p(item): lst.remove(item)` on the live
list (lines 219–221): the iterator is index-based, `lst.remove` deletes
the first occurrence equal to the item (`List.erase`), so removing the
current item shifts the next one into the current slot and the iterator
skips it. -/
def pyRemoveLoopF (p : String → Bool) : Nat → List String → Nat → List String
  | 0, l, _ => l
  | fuel + 1, l, i =>
    if h : i < l.length then
      let item := l.get ⟨i, h⟩
      pyRemoveLoopF p fuel (if p item then l.erase item else l) (i + 1)
    else l

/-- The loop of lines 219–221, entered with iterator index 0.  `l.length`
steps of fuel always suffice: the index grows by one per step while the
list never grows, so after `l.length` steps the index is out of range. -/
def pyRemoveLoop (p : String → Bool) (l : List String) : List String :=
  pyRemoveLoopF p l.length l 0

/-- Python `"(" + role + ")" appears in item` — the effect of
`re.search("\(%s\)" % role, item)` for the regex-metacharacter-free roles
the claims use (`Piano`, `Guitar`): the pattern matches iff the literal
substring `(role)` occurs in the value. -/
def roleMatches (role item : String) : Bool :=
  let pat := ("(" ++ role ++ ")").data
  (List.range (item.data.length + 1)).any (fun i => chStarts pat (item.data.drop i))

/-- One step of the deletion pass of `_save` (lines 214–223) for a single
deleted internal field name, acting on the saved raw tag dictionary.
`tag.split(':', 1)[1]` raises `IndexError` when the deleted name holds no
colon (modelled as `Except.error`). -/
def deleteOne (ctx : Ctx) (fileTags : List (String × List String)) (tag : String) :
    Except Unit (List (String × List String)) :=
  match getTagName ctx tag with
  | none => .ok fileTags
  | some realName =>
    if hasKey fileTags realName then
      if realName = "performer" ∨ realName = "comment" then
        match splitOnce tag ':' with
        | none => .error ()
        | some p =>
          .ok (fileTags.map (fun q =>
            if q.1 = realName then (q.1, pyRemoveLoop (roleMatches p.2) q.2) else q))
      else .ok (fileTags.filter (fun q => q.1 ≠ realName))
    else .ok fileTags

/-- The deletion pass of `_save` (lines 214–223) over all deleted internal
field names. -/
def applyDeletions (ctx : Ctx) (deleted : List String)
    (fileTags : List (String × List String)) : Except Unit (List (String × List String)) :=
  match deleted with
  | [] => .ok fileTags
  | t :: rest =>
    match deleteOne ctx fileTags t with
    | .error e => .error e
    | .ok tags2 => applyDeletions ctx rest tags2

/-- Strict lexicographic comparison of character lists: Python `<` on the
(ASCII) `__name__` strings compared when two score tuples tie. -/
def chLT : List Char → List Char → Bool
  | [], [] => false
  | [], _ :: _ => true
  | _ :: _, [] => false
  | x :: xs, y :: ys => x < y || (x = y && chLT xs ys)

/-- Python `<` on the `(score, __name__)` pairs built by
`_select_ogg_type` (the third tuple component, the class object, is only
compared when score and name both tie, which cannot deterministically
distinguish candidates; the model keeps declaration order there, matching
the sort's stability). -/
def candLT (a b : Int × String) : Bool :=
  a.1 < b.1 || (a.1 = b.1 && chLT a.2.data b.2.data)

/-- Stable insertion of a candidate into an already sorted list: the new
element goes before the first strictly greater element, hence after all
equal ones. -/
def insertCand (x : Int × String) : List (Int × String) → List (Int × String)
  | [] => [x]
  | y :: ys => if candLT x y then x :: y :: ys else y :: insertCand x ys

/-- Python `results.sort()` (a stable sort under the tuple comparison):
modelled as a stable insertion sort, which produces the same list as any
stable sort for a total comparison. -/
def sortCands (l : List (Int × String)) : List (Int × String) :=
  l.foldl (fun acc x => insertCand x acc) []

/-- `_select_ogg_type` (lines 325–339) on the scored candidates, each
represented as `(score, __name__)` in declaration order: sort, then fail
(`none`, modelling `raise mutagen.ogg.error`) when the list is empty or
the last (greatest) score is non-positive, else return the last
candidate's name. -/
def selectOggType (results : List (Int × String)) : Option String :=
  match (sortCands results).getLast? with
  | none => none
  | some last => if last.1 ≤ 0 then none else some last.2

theorem strData_inj {s t : String} (h : s.data = t.data) : s = t := by
  cases s
  cases t
  exact congrArg String.mk h

theorem chLT_irrefl (l : List Char) : chLT l l = false := by
  induction l with
  | nil => rfl
  | cons x xs ih => simp [chLT, ih]

theorem chLT_asymm : ∀ (a b : List Char), chLT a b = true → chLT b a = false := by
  intro a
  induction a with
  | nil =>
    intro b h
    cases b with
    | nil => simp [chLT] at h
    | cons y ys => simp [chLT]
  | cons x xs ih =>
    intro b h
    cases b with
    | nil => simp [chLT] at h
    | cons y ys =>
      simp only [chLT, Bool.or_eq_true, Bool.and_eq_true, decide_eq_true_eq] at h
      rcases h with h | ⟨rfl, h⟩
      · have h1 : ¬ y < x := lt_asymm h
        have h2 : ¬ y = x := fun e => absurd h (e ▸ lt_irrefl x)
        simp [chLT, h1, h2]
      · simp [chLT, ih ys h]

theorem chLT_trans : ∀ (a b c : List Char), chLT a b = true → chLT b c = true → chLT a c = true := by
  intro a
  induction a with
  | nil =>
    intro b c h1 h2
    cases b with
    | nil => simp [chLT] at h1
    | cons y ys =>
      cases c with
      | nil => simp [chLT] at h2
      | cons z zs => simp [chLT]
  | cons x xs ih =>
    intro b c h1 h2
    cases b with
    | nil => simp [chLT] at h1
    | cons y ys =>
      cases c with
      | nil => simp [chLT] at h2
      | cons z zs =>
        simp only [chLT, Bool.or_eq_true, Bool.and_eq_true, decide_eq_true_eq] at h1 h2 ⊢
        rcases h1 with h1 | ⟨rfl, h1⟩
        · rcases h2 with h2 | ⟨rfl, h2⟩
          · exact Or.inl (lt_trans h1 h2)
          · exact Or.inl h1
        · rcases h2 with h2 | ⟨rfl, h2⟩
          · exact Or.inl h2
          · exact Or.inr ⟨rfl, ih ys zs h1 h2⟩

theorem chLT_antisymm : ∀ (a b : List Char), chLT a b = false → chLT b a = false → a = b := by
  intro a
  induction a with
  | nil =>
    intro b h1 _
    cases b with
    | nil => rfl
    | cons y ys => simp [chLT] at h1
  | cons x xs ih =>
    intro b h1 h2
    cases b with
    | nil => simp [chLT] at h2
    | cons y ys =>
      simp only [chLT, Bool.or_eq_false_iff, Bool.and_eq_false_iff,
        decide_eq_false_iff_not, decide_eq_true_eq] at h1 h2
      have hxy : x = y := le_antisymm (not_lt.mp h2.1) (not_lt.mp h1.1)
      subst hxy
      rcases h1.2 with h1' | h1'
      · exact absurd rfl h1'
      · rcases h2.2 with h2' | h2'
        · exact absurd rfl h2'
        · exact congrArg (x :: ·) (ih ys h1' h2')

theorem candLT_irrefl (a : Int × String) : candLT a a = false := by
  simp [candLT, chLT_irrefl]

theorem candLT_asymm {a b : Int × String} (h : candLT a b = true) : candLT b a = false := by
  simp only [candLT, Bool.or_eq_true, Bool.and_eq_true, decide_eq_true_eq] at h
  rcases h with h | ⟨h, h2⟩
  · have h1 : ¬ b.1 < a.1 := lt_asymm h
    have h3 : ¬ b.1 = a.1 := fun e => absurd h (e ▸ lt_irrefl a.1)
    simp [candLT, h1, h3]
  · simp [candLT, h, chLT_asymm _ _ h2, lt_irrefl]

theorem candLT_trans {a b c : Int × String} (h1 : candLT a b = true) (h2 : candLT b c = true) :
    candLT a c = true := by
  simp only [candLT, Bool.or_eq_true, Bool.and_eq_true, decide_eq_true_eq] at h1 h2 ⊢
  rcases h1 with h1 | ⟨e1, h1⟩
  · rcases h2 with h2 | ⟨e2, h2⟩
    · exact Or.inl (lt_trans h1 h2)
    · exact Or.inl (e2 ▸ h1)
  · rcases h2 with h2 | ⟨e2, h2⟩
    · exact Or.inl (e1 ▸ h2)
    · exact Or.inr ⟨e1.trans e2, chLT_trans _ _ _ h1 h2⟩

theorem candLT_antisymm {a b : Int × String} (h1 : candLT a b = false)
    (h2 : candLT b a = false) : a = b := by
  simp only [candLT, Bool.or_eq_false_iff, Bool.and_eq_false_iff,
    decide_eq_false_iff_not, decide_eq_true_eq] at h1 h2
  have e : a.1 = b.1 := le_antisymm (not_lt.mp h2.1) (not_lt.mp h1.1)
  have e2 : a.2 = b.2 := by
    rcases h1.2 with h | h
    · exact absurd e h
    · rcases h2.2 with h' | h'
      · exact absurd e.symm h'
      · exact strData_inj (chLT_antisymm _ _ h h')
  exact Prod.ext e e2

theorem mem_insertCand {z x : Int × String} :
    ∀ {l : List (Int × String)}, z ∈ insertCand x l → z = x ∨ z ∈ l := by
  intro l
  induction l with
  | nil => intro h; simpa [insertCand] using h
  | cons y ys ih =>
    intro h
    by_cases hxy : candLT x y = true
    · simpa [insertCand, hxy] using h
    · simp only [insertCand, if_neg hxy, List.mem_cons] at h
      rcases h with rfl | h
      · exact Or.inr (List.mem_cons_self _ _)
      · rcases ih h with h | h
        · exact Or.inl h
        · exact Or.inr (List.mem_cons_of_mem _ h)

theorem mem_insertCand_of_mem {z : Int × String} (x : Int × String) :
    ∀ {l : List (Int × String)}, z ∈ l → z ∈ insertCand x l := by
  intro l
  induction l with
  | nil => intro h; cases h
  | cons y ys ih =>
    intro h
    by_cases hxy : candLT x y = true
    · simp [insertCand, hxy, List.mem_cons]
      rcases List.mem_cons.mp h with rfl | h
      · simp
      · exact Or.inr (Or.inr h)
    · simp only [insertCand, if_neg hxy, List.mem_cons]
      rcases List.mem_cons.mp h with rfl | h
      · exact Or.inl rfl
      · exact Or.inr (ih h)

theorem self_mem_insertCand (x : Int × String) :
    ∀ (l : List (Int × String)), x ∈ insertCand x l := by
  intro l
  induction l with
  | nil => simp [insertCand]
  | cons y ys ih =>
    by_cases hxy : candLT x y = true
    · simp [insertCand, hxy]
    · simp only [insertCand, if_neg hxy, List.mem_cons]
      exact Or.inr ih

theorem pairwise_insertCand {x : Int × String} :
    ∀ {l : List (Int × String)}, l.Pairwise (fun a b => candLT b a = false) →
      (insertCand x l).Pairwise (fun a b => candLT b a = false) := by
  intro l
  induction l with
  | nil => intro _; simp [insertCand, List.pairwise_cons]
  | cons y ys ih =>
    intro h
    rw [List.pairwise_cons] at h
    by_cases hxy : candLT x y = true
    · simp only [insertCand, if_pos hxy]
      rw [List.pairwise_cons]
      refine ⟨?_, by rw [List.pairwise_cons]; exact h⟩
      intro z hz
      rcases List.mem_cons.mp hz with rfl | hz
      · exact candLT_asymm hxy
      · by_contra hc
        have hzx : candLT z x = true := by
          cases hzx : candLT z x
          · exact absurd hzx hc
          · rfl
        exact absurd (candLT_trans hzx hxy) (by simp [h.1 z hz])
    · simp only [insertCand, if_neg hxy]
      rw [List.pairwise_cons]
      refine ⟨?_, ih h.2⟩
      intro z hz
      rcases mem_insertCand hz with rfl | hz
      · exact Bool.not_eq_true _ ▸ hxy
      · exact h.1 z hz

theorem pairwise_sortFold :
    ∀ (l acc : List (Int × String)), acc.Pairwise (fun a b => candLT b a = false) →
      (l.foldl (fun a x => insertCand x a) acc).Pairwise (fun a b => candLT b a = false) := by
  intro l
  induction l with
  | nil => intro acc h; exact h
  | cons x xs ih => intro acc h; exact ih _ (pairwise_insertCand h)

theorem pairwise_sortCands (l : List (Int × String)) :
    (sortCands l).Pairwise (fun a b => candLT b a = false) :=
  pairwise_sortFold l [] (List.Pairwise.nil)

theorem mem_sortFold1 :
    ∀ (l acc : List (Int × String)) (z : Int × String),
      z ∈ l.foldl (fun a x => insertCand x a) acc → z ∈ l ∨ z ∈ acc := by
  intro l
  induction l with
  | nil => intro acc z h; exact Or.inr h
  | cons x xs ih =>
    intro acc z h
    rcases ih _ z h with h | h
    · exact Or.inl (List.mem_cons_of_mem _ h)
    · rcases mem_insertCand h with rfl | h
      · exact Or.inl (List.mem_cons_self _ _)
      · exact Or.inr h

theorem mem_sortFold2 :
    ∀ (l acc : List (Int × String)) (z : Int × String),
      z ∈ l ∨ z ∈ acc → z ∈ l.foldl (fun a x => insertCand x a) acc := by
  intro l
  induction l with
  | nil =>
    intro acc z h
    rcases h with h | h
    · cases h
    · exact h
  | cons x xs ih =>
    intro acc z h
    rcases h with h | h
    · rcases List.mem_cons.mp h with rfl | h
      · exact ih _ z (Or.inr (self_mem_insertCand z acc))
      · exact ih _ z (Or.inl h)
    · exact ih _ z (Or.inr (mem_insertCand_of_mem x h))

theorem mem_of_mem_sortCands {z : Int × String} {l : List (Int × String)}
    (h : z ∈ sortCands l) : z ∈ l := by
  rcases mem_sortFold1 l [] z h with h | h
  · exact h
  · cases h

theorem mem_sortCands_of_mem {z : Int × String} {l : List (Int × String)}
    (h : z ∈ l) : z ∈ sortCands l :=
  mem_sortFold2 l [] z (Or.inl h)

theorem pairwise_getLast_max {m : Int × String} :
    ∀ {l : List (Int × String)}, l.Pairwise (fun a b => candLT b a = false) →
      l.getLast? = some m → ∀ x ∈ l, candLT m x = false := by
  intro l
  induction l with
  | nil => intro _ h; cases h
  | cons a rest ih =>
    intro h hl x hx
    rw [List.pairwise_cons] at h
    cases hrest : rest with
    | nil =>
      subst hrest
      have ham : a = m := by simpa [List.getLast?] using hl
      rcases List.mem_cons.mp hx with rfl | hx
      · rw [← ham]
        exact candLT_irrefl x
      · cases hx
    | cons b bs =>
      subst hrest
      rw [List.getLast?_cons_cons] at hl
      rcases List.mem_cons.mp hx with rfl | hx
      · exact h.1 m (List.mem_of_mem_getLast? hl)
      · exact ih h.2 hl x hx

/-- C4, counterexample.  The claim says that among candidates tied for the
highest score the one that comes *last in declaration order* is chosen.
For the declaration-order list `[(5, "B"), (5, "A")]` the last-declared
tied maximum is `"A"`, but `_select_ogg_type` sorts the `(score, name)`
tuples, so the lexicographically greatest name `"B"` ends up last and is
selected. -/
theorem detector_tie_declaration_order_falsified :
    selectOggType [(5, "B"), (5, "A")] = some "B" ∧ "B" ≠ "A" := by
  constructor
  · decide
  · decide

/-- C4, amended.  The candidate with the strictly highest score is
selected; ties on the score are broken by the lexicographic order of the
candidate class names (`results.sort()` compares the `(score, __name__)`
tuples), the greatest name winning — not by declaration order.  Stated
as: any candidate `(s, n)` that is maximal in the `(score, name)` order
and has positive score is the one selected. -/
theorem detector_tiebreak_by_name (results : List (Int × String)) (s : Int) (n : String)
    (hmem : (s, n) ∈ results) (hmax : ∀ x ∈ results, candLT (s, n) x = false) (hs : 0 < s) :
    selectOggType results = some n := by
  have hmem2 : (s, n) ∈ sortCands results := mem_sortCands_of_mem hmem
  cases hl : (sortCands results).getLast? with
  | none =>
    rw [List.getLast?_eq_none_iff] at hl
    rw [hl] at hmem2
    cases hmem2
  | some m =>
    have hm1 : m ∈ results := mem_of_mem_sortCands (List.mem_of_mem_getLast? hl)
    have h1 : candLT (s, n) m = false := hmax m hm1
    have h2 : candLT m (s, n) = false :=
      pairwise_getLast_max (pairwise_sortCands results) hl _ hmem2
    have hm : m = (s, n) := candLT_antisymm h2 h1
    simp only [selectOggType, hl, hm]
    rw [if_neg (by simpa using not_le.mpr hs)]

/-- C4, amended, witness: for the repository's generic-audio candidate
list with scores `(0, 5, 5)` in declaration order, the selected candidate
is the third one (here declaration order and name order agree, so the
claim's concrete example does hold). -/
theorem detector_tiebreak_by_name_witness :
    selectOggType [(0, "OggFLACFile"), (5, "OggSpeexFile"), (5, "OggVorbisFile")]
      = some "OggVorbisFile" :=
  detector_tiebreak_by_name _ 5 "OggVorbisFile" (by decide) (by decide) (by decide)

/-- C5.  When no candidate's score is positive (all scores ≤ 0, which
includes the empty candidate list), `_select_ogg_type` raises the
unknown-Ogg-format error (modelled as `none`) instead of returning a
candidate. -/
theorem detector_no_positive_fails (results : List (Int × String))
    (h : ∀ x ∈ results, x.1 ≤ 0) : selectOggType results = none := by
  cases hl : (sortCands results).getLast? with
  | none => simp [selectOggType, hl]
  | some m =>
    have hm : m ∈ results := mem_of_mem_sortCands (List.mem_of_mem_getLast? hl)
    simp [selectOggType, hl, h m hm]

/-- C5, witness: a list with scores `0` and `-1` fails, and the empty
list fails. -/
theorem detector_no_positive_fails_witness :
    selectOggType [(0, "A"), (-1, "B")] = none ∧ selectOggType [] = none :=
  ⟨detector_no_positive_fails _ (by decide), detector_no_positive_fails _ (by decide)⟩

theorem loadMBP_total (ops : ImgOps) (f g : String → String)
    (hb : ∀ s, ops.b64decode s = .ok (f s)) (hp : ∀ s, ops.parsePicture s = .ok (g s)) :
    ∀ vs : List String, loadMBP ops vs = .ok (vs.filterMap fun v =>
      match ops.coverFromPicture "metadata_block_picture" (g (f v)) with
      | .error _ => none
      | .ok pay => some (Image.mk "metadata_block_picture" pay)) := by
  intro vs
  induction vs with
  | nil => rfl
  | cons v rest ih =>
    simp only [loadMBP, hb v, hp (f v), List.filterMap_cons]
    cases hcv : ops.coverFromPicture "metadata_block_picture" (g (f v)) with
    | error e => simp [ih]
    | ok pay => simp [ih]

theorem loadNative_eq (ops : ImgOps) : ∀ ps : List String,
    loadNative ops ps = ps.filterMap fun p =>
      match ops.coverFromPicture "FLAC/PICTURE" p with
      | .error _ => none
      | .ok pay => some (Image.mk "FLAC/PICTURE" pay) := by
  intro ps
  induction ps with
  | nil => rfl
  | cons p rest ih =>
    simp only [loadNative, List.filterMap_cons]
    cases hcv : ops.coverFromPicture "FLAC/PICTURE" p with
    | error e => simp [ih]
    | ok pay => simp [ih]

theorem loadLegacy_total (ops : ImgOps) (f : String → String)
    (hb : ∀ s, ops.b64decode s = .ok (f s)) :
    ∀ vs : List String, loadLegacy ops vs = .ok (vs.filterMap fun v =>
      match ops.coverFromData "COVERART" (f v) with
      | .error _ => none
      | .ok pay => some (Image.mk "COVERART" pay)) := by
  intro vs
  induction vs with
  | nil => rfl
  | cons v rest ih =>
    simp only [loadLegacy, hb v, List.filterMap_cons]
    cases hcv : ops.coverFromData "COVERART" (f v) with
    | error e => simp [ih]
    | ok pay => simp [ih]

/-- C2, counterexample.  The claim says every failure to decode an
individual embedded image is non-fatal and load does not raise.  But the
base64 decode of a `metadata_block_picture` value runs *outside* the
`try` block (line 100), so its failure propagates out of `_load`: with a
base64 oracle that fails on the single value `"x"`, the image-loading
pass returns an error (raises) instead of skipping the image. -/
theorem image_decode_failure_raises :
    loadImages ⟨fun _ => .error (), fun s => .ok s, fun _ s => .ok s, fun _ s => .ok s⟩
      false [("metadata_block_picture", ["x"])] [] = .error () := rfl

/-- C2, amended.  Only failures signalled as `CoverArtImageError` by the
`TagCoverArtImage` constructor are non-fatal (logged, that image skipped,
processing of the remaining images continues, load does not raise);
failures of the base64 decode or of the binary picture-block parse are
not caught and propagate.  Stated as: whenever the base64 and
picture-parse oracles always succeed, the image pass returns `ok`, and
its result is exactly the per-value filter that drops each value whose
cover-art construction failed and keeps all others, across all three
image sources. -/
theorem coverart_error_nonfatal (ops : ImgOps) (f g : String → String)
    (hb : ∀ s, ops.b64decode s = .ok (f s)) (hp : ∀ s, ops.parsePicture s = .ok (g s))
    (isFlac : Bool) (tags : List (String × List String)) (pics : List String) :
    loadImages ops isFlac tags pics = .ok (
      ((getVals tags "metadata_block_picture").filterMap fun v =>
        match ops.coverFromPicture "metadata_block_picture" (g (f v)) with
        | .error _ => none
        | .ok pay => some (Image.mk "metadata_block_picture" pay))
      ++ (if isFlac then pics.filterMap (fun p =>
            match ops.coverFromPicture "FLAC/PICTURE" p with
            | .error _ => none
            | .ok pay => some (Image.mk "FLAC/PICTURE" pay)) else [])
      ++ (if hasKey tags "metadata_block_picture" then []
          else (getVals tags "COVERART").filterMap fun v =>
            match ops.coverFromData "COVERART" (f v) with
            | .error _ => none
            | .ok pay => some (Image.mk "COVERART" pay))) := by
  simp only [loadImages, loadMBP_total ops f g hb hp, loadNative_eq ops,
    loadLegacy_total ops f hb]
  cases hk : hasKey tags "metadata_block_picture" <;> simp [hk]

/-- C2, amended, witness: with total base64/parse oracles and a cover-art
constructor that fails on the first of two `metadata_block_picture`
values, the failing image is skipped, the second is still decoded, and
load returns `ok`. -/
theorem coverart_error_nonfatal_witness :
    loadImages
        ⟨fun s => .ok s, fun s => .ok s,
         fun _ p => if p = "x" then .error () else .ok p, fun _ s => .ok s⟩
      false [("metadata_block_picture", ["x", "y"])] []
      = .ok [Image.mk "metadata_block_picture" "y"] := by
  rw [coverart_error_nonfatal _ id id (fun _ => rfl) (fun _ => rfl) false _ []]
  rfl

/-- C3.  Whenever the raw tag dictionary has a `metadata_block_picture`
key, the legacy `COVERART` path is skipped entirely (line 136): the
image pass equals the `metadata_block_picture` + native-picture part
alone, no matter what `COVERART` values are present and even when the
`metadata_block_picture` values decode to zero images. -/
theorem coverart_skipped_when_mbp (ops : ImgOps) (isFlac : Bool)
    (tags : List (String × List String)) (pics : List String)
    (h : hasKey tags "metadata_block_picture" = true) :
    loadImages ops isFlac tags pics =
      match loadMBP ops (getVals tags "metadata_block_picture") with
      | .error e => .error e
      | .ok mbp => .ok (mbp ++ (if isFlac then loadNative ops pics else [])) := by
  simp only [loadImages, h]
  cases hm : loadMBP ops (getVals tags "metadata_block_picture") with
  | error e => rfl
  | ok mbp => simp

/-- C3, witness: a dictionary holding both a `metadata_block_picture`
entry whose cover-art construction fails (zero images decoded) and a
perfectly decodable `COVERART` entry yields no images at all — the
legacy value `"z"` is never decoded. -/
theorem coverart_skipped_when_mbp_witness :
    loadImages ⟨fun s => .ok s, fun s => .ok s, fun _ _ => .error (), fun _ s => .ok s⟩
      false [("metadata_block_picture", ["w"]), ("COVERART", ["z"])] [] = .ok [] := by
  rw [coverart_skipped_when_mbp _ _ _ _ (by decide)]
  rfl

theorem getVals_setdefaultAppend_same :
    ∀ (t : List (String × List String)) (k v : String),
      getVals (setdefaultAppend t k v) k = getVals t k ++ [v] := by
  intro t k v
  induction t with
  | nil => simp [setdefaultAppend, getVals]
  | cons p rest ih =>
    by_cases hp : p.1 = k
    · simp [setdefaultAppend, getVals, hp]
    · simpa [setdefaultAppend, getVals, hp] using ih

theorem getVals_setdefaultAppend_ne :
    ∀ (t : List (String × List String)) (k v k2 : String), k2 ≠ k →
      getVals (setdefaultAppend t k v) k2 = getVals t k2 := by
  intro t k v k2 hne
  induction t with
  | nil => simp [setdefaultAppend, getVals, hne, Ne.symm hne]
  | cons p rest ih =>
    by_cases hp : p.1 = k
    · subst hp
      simp [setdefaultAppend, getVals, Ne.symm hne]
    · by_cases hp2 : p.1 = k2
      · simp [setdefaultAppend, getVals, hp, hp2, hne]
      · simpa [setdefaultAppend, getVals, hp, hp2] using ih

theorem getVals_picsFold_ne :
    ∀ (pics : List String) (t : List (String × List String)) (k2 : String),
      k2 ≠ "METADATA_BLOCK_PICTURE" →
      getVals (pics.foldl (fun t p => setdefaultAppend t "METADATA_BLOCK_PICTURE" p) t) k2
        = getVals t k2 := by
  intro pics
  induction pics with
  | nil => intro t k2 _; rfl
  | cons p rest ih =>
    intro t k2 hne
    rw [List.foldl_cons, ih _ _ hne, getVals_setdefaultAppend_ne _ _ _ _ hne]

theorem getVals_saveTags_aux (ctx : Ctx) (md : List (String × String)) (isFlac : Bool)
    (pics : List String) (k : String) (h1 : k ≠ "DISCTOTAL")
    (h2 : k ≠ "METADATA_BLOCK_PICTURE") :
    getVals (saveTags ctx md isFlac pics) k =
      getVals (if mdHas md "totaltracks"
               then setdefaultAppend (mainPass ctx md) "TRACKTOTAL" (mdGet md "totaltracks")
               else mainPass ctx md) k := by
  cases hd : mdHas md "totaldiscs" <;> cases isFlac <;>
    simp [saveTags, hd, getVals_setdefaultAppend_ne _ _ _ _ h1, getVals_picsFold_ne _ _ _ h2]

/-- C1.  Performer round-trip: saving the internal field
`performer:Piano = "Joe Barr"` emits the single raw value
`"Joe Barr (Piano)"` under the raw name `performer` (upper-cased to
`PERFORMER` at insertion; raw tag names are case-insensitive), and the
load-direction normalization of the raw entry
`performer = "Joe Barr (Piano)"` reproduces the internal field
`performer:Piano = "Joe Barr"`. -/
theorem performer_roundtrip (ctx : Ctx) (isFlac hasTT hasTD : Bool) :
    saveTags ctx [("performer:Piano", "Joe Barr")] isFlac []
      = [("PERFORMER", ["Joe Barr (Piano)"])] ∧
    lowerStr "PERFORMER" = "performer" ∧
    normalizeIn ctx hasTT hasTD "performer" "Joe Barr (Piano)"
      = .field "performer:Piano" "Joe Barr" := by
  refine ⟨?_, rfl, rfl⟩
  cases isFlac <;> rfl

/-- C6.  Totals handling: on load a raw `tracktotal` entry is skipped
whenever a `totaltracks` raw entry coexists in the tag dictionary and is
renamed to the internal `totaltracks` otherwise; on save, whenever the
internal `totaltracks` field is present, a raw `TRACKTOTAL` entry
carrying its value is appended in addition to — and without disturbing —
whatever the generic name-mapping pass produced under `TOTALTRACKS`. -/
theorem totals_handling (ctx : Ctx) (hTD : Bool) (v : String)
    (md : List (String × String)) (isFlac : Bool) (pics : List String)
    (hmd : mdHas md "totaltracks" = true) :
    normalizeIn ctx true hTD "tracktotal" v = .skip ∧
    normalizeIn ctx false hTD "tracktotal" v = .field "totaltracks" v ∧
    getVals (saveTags ctx md isFlac pics) "TRACKTOTAL"
      = getVals (mainPass ctx md) "TRACKTOTAL" ++ [mdGet md "totaltracks"] ∧
    getVals (saveTags ctx md isFlac pics) "TOTALTRACKS"
      = getVals (mainPass ctx md) "TOTALTRACKS" := by
  have h3 := getVals_saveTags_aux ctx md isFlac pics "TRACKTOTAL" (by decide) (by decide)
  have h4 := getVals_saveTags_aux ctx md isFlac pics "TOTALTRACKS" (by decide) (by decide)
  rw [hmd, if_pos rfl] at h3 h4
  refine ⟨rfl, rfl, ?_, ?_⟩
  · rw [h3, getVals_setdefaultAppend_same]
  · rw [h4, getVals_setdefaultAppend_ne _ _ _ _ (by decide)]

/-- C6, witness: a metadata record holding `totaltracks = "12"` re-emits
`TRACKTOTAL = "12"` next to the generically mapped `TOTALTRACKS`, and the
two load-direction branches behave as stated on the value `"9"`. -/
theorem totals_handling_witness :
    normalizeIn ⟨"", id, id, id⟩ true false "tracktotal" "9" = .skip ∧
    normalizeIn ⟨"", id, id, id⟩ false false "tracktotal" "9" = .field "totaltracks" "9" ∧
    getVals (saveTags ⟨"", id, id, id⟩ [("totaltracks", "12")] false []) "TRACKTOTAL"
      = getVals (mainPass ⟨"", id, id, id⟩ [("totaltracks", "12")]) "TRACKTOTAL"
        ++ [mdGet [("totaltracks", "12")] "totaltracks"] ∧
    getVals (saveTags ⟨"", id, id, id⟩ [("totaltracks", "12")] false []) "TOTALTRACKS"
      = getVals (mainPass ⟨"", id, id, id⟩ [("totaltracks", "12")]) "TOTALTRACKS" :=
  totals_handling ⟨"", id, id, id⟩ false "9" [("totaltracks", "12")] false [] (by decide)

/-- C7.  Every raw tag whose name starts with `rating` and whose email
part (the substring after the first `:`, empty when there is no `:`)
differs from the configured rating user email is silently skipped on
load: it contributes no internal field and raises no error. -/
theorem rating_email_mismatch_skipped (ctx : Ctx) (hasTT hasTD : Bool) (name value : String)
    (h1 : strStarts name "rating" = true) (h2 : ratingEmail name ≠ ctx.ratingUserEmail) :
    normalizeIn ctx hasTT hasTD name value = .skip := by
  have hd : ¬ (name = "date" ∨ name = "originaldate") := by
    rintro (rfl | rfl) <;> exact absurd h1 (by decide)
  have hp : ¬ (name = "performer" ∨ name = "comment") := by
    rintro (rfl | rfl) <;> exact absurd h1 (by decide)
  unfold normalizeIn
  rw [if_neg hd, if_neg hp, if_pos h1, if_pos h2]

/-- C7, witness: the raw name `rating:bob@x` under configured email
`alice@x` is dropped. -/
theorem rating_email_mismatch_skipped_witness :
    normalizeIn ⟨"alice@x", id, id, id⟩ false false "rating:bob@x" "0.4" = .skip :=
  rating_email_mismatch_skipped ⟨"alice@x", id, id, id⟩ false false "rating:bob@x" "0.4"
    (by decide) (by decide)

/-- C8.  Evaluation of the deletion pass at the failing input: deleting
`performer:Piano` from raw `performer = ["A (Piano)", "B (Piano)",
"X (Guitar)"]` removes only `"A (Piano)"` — the loop of lines 219–221
mutates the list while iterating it by index, so the matching value
`"B (Piano)"` that slides into the removed value's slot is skipped and
survives, although it contains the literal substring `(Piano)`.  The
claim's other half does hold: deleting a field whose raw name is not
`performer`/`comment` removes the whole raw entry. -/
theorem performer_delete_skips_consecutive :
    applyDeletions ⟨"", id, id, id⟩ ["performer:Piano"]
        [("performer", ["A (Piano)", "B (Piano)", "X (Guitar)"])]
      = .ok [("performer", ["B (Piano)", "X (Guitar)"])] ∧
    roleMatches "Piano" "B (Piano)" = true ∧
    applyDeletions ⟨"", id, id, id⟩ ["foo"] [("foo", ["1"]), ("bar", ["2"])]
      = .ok [("bar", ["2"])] :=
  ⟨rfl, by decide, rfl⟩

theorem char_toUpper_eq_self (c : Char) (h : ¬ (97 ≤ c.toNat ∧ c.toNat ≤ 122)) :
    c.toUpper = c := by
  unfold Char.toUpper
  exact if_neg h

theorem char_toUpper_toNat (c : Char) (h : 97 ≤ c.toNat ∧ c.toNat ≤ 122) :
    c.toUpper.toNat = c.toNat - 32 := by
  unfold Char.toUpper
  rw [if_pos h]
  unfold Char.ofNat
  rw [dif_pos (Or.inl (by omega))]
  simp [Char.ofNatAux, Char.toNat, UInt32.toNat]

theorem char_toUpper_idem (c : Char) : c.toUpper.toUpper = c.toUpper := by
  by_cases h : 97 ≤ c.toNat ∧ c.toNat ≤ 122
  · have h1 := char_toUpper_toNat c h
    exact char_toUpper_eq_self c.toUpper (by omega)
  · rw [char_toUpper_eq_self c h]
    exact char_toUpper_eq_self c h

theorem mapUpper_idem : ∀ l : List Char,
    (l.map Char.toUpper).map Char.toUpper = l.map Char.toUpper := by
  intro l
  induction l with
  | nil => rfl
  | cons c cs ih => simp only [List.map_cons, char_toUpper_idem c, ih]

theorem upperStr_idem (s : String) : upperStr (upperStr s) = upperStr s :=
  congrArg String.mk (mapUpper_idem s.data)

theorem mem_keys_setdefaultAppend :
    ∀ (t : List (String × List String)) (k v k2 : String),
      k2 ∈ (setdefaultAppend t k v).map Prod.fst → k2 ∈ t.map Prod.fst ∨ k2 = k := by
  intro t k v k2
  induction t with
  | nil =>
    intro h
    simp [setdefaultAppend] at h
    exact Or.inr h
  | cons p rest ih =>
    intro h
    by_cases hp : p.1 = k
    · simp only [setdefaultAppend, if_pos hp, List.map_cons, List.mem_cons] at h
      rcases h with h | h
      · exact Or.inl (by simp [h])
      · exact Or.inl (by simp [h])
    · simp only [setdefaultAppend, if_neg hp, List.map_cons, List.mem_cons] at h
      rcases h with h | h
      · exact Or.inl (by simp [h])
      · rcases ih h with h | h
        · exact Or.inl (by simp [h])
        · exact Or.inr h

theorem mem_keys_picsFold :
    ∀ (pics : List String) (t : List (String × List String)) (k2 : String),
      k2 ∈ ((pics.foldl (fun t p => setdefaultAppend t "METADATA_BLOCK_PICTURE" p) t)).map
        Prod.fst →
      k2 ∈ t.map Prod.fst ∨ k2 = "METADATA_BLOCK_PICTURE" := by
  intro pics
  induction pics with
  | nil => intro t k2 h; exact Or.inl h
  | cons p rest ih =>
    intro t k2 h
    rcases ih _ k2 h with h | h
    · exact mem_keys_setdefaultAppend _ _ _ _ h
    · exact Or.inr h

theorem mainPass_keys_upper (ctx : Ctx) :
    ∀ (md : List (String × String)) (acc : List (String × List String)),
      (∀ k ∈ acc.map Prod.fst, upperStr k = k) →
      ∀ k ∈ (md.foldl
        (fun tags p =>
          match normalizeOut ctx p.1 p.2 with
          | .drop => tags
          | .entry n v => setdefaultAppend tags (upperStr n) v) acc).map Prod.fst,
        upperStr k = k := by
  intro md
  induction md with
  | nil => intro acc hacc; exact hacc
  | cons p rest ih =>
    intro acc hacc k
    rw [List.foldl_cons]
    refine ih _ ?_ k
    intro k2 hk2
    cases hout : normalizeOut ctx p.1 p.2 with
    | drop => exact hacc k2 (by rwa [hout] at hk2)
    | entry n v =>
      rw [hout] at hk2
      rcases mem_keys_setdefaultAppend _ _ _ _ hk2 with h | h
      · exact hacc k2 h
      · rw [h]
        exact upperStr_idem n

/-- C9.  Every raw tag name that `_save` inserts into the output tag
dictionary is a fixed point of upper-casing, whichever rule produced it:
the main pass inserts `name.upper()`, and the post-passes insert the
upper-case literals `TRACKTOTAL`, `DISCTOTAL` and
`METADATA_BLOCK_PICTURE`.  In particular the rating name built from the
configured email `joe@x.com` is written `RATING:JOE@X.COM`, the email
upper-cased as well. -/
theorem save_names_uppercased (ctx : Ctx) (md : List (String × String)) (isFlac : Bool)
    (pics : List String) :
    (∀ k ∈ (saveTags ctx md isFlac pics).map Prod.fst, upperStr k = k) ∧
    saveTags ⟨"joe@x.com", id, id, id⟩ [("~rating", "5")] false []
      = [("RATING:JOE@X.COM", ["5"])] := by
  refine ⟨?_, rfl⟩
  intro k hk
  have hmain : ∀ k2 ∈ (mainPass ctx md).map Prod.fst, upperStr k2 = k2 :=
    mainPass_keys_upper ctx md [] (by intro k2 h; cases h)
  have ht2 : ∀ k2 ∈ ((if mdHas md "totaltracks"
      then setdefaultAppend (mainPass ctx md) "TRACKTOTAL" (mdGet md "totaltracks")
      else mainPass ctx md)).map Prod.fst, upperStr k2 = k2 := by
    intro k2 h
    cases htt : mdHas md "totaltracks" <;> rw [htt] at h
    · exact hmain k2 (by simpa using h)
    · rcases mem_keys_setdefaultAppend _ _ _ _ (by simpa using h) with h | h
      · exact hmain k2 h
      · rw [h]; decide
  have ht3 : ∀ k2 ∈ ((if mdHas md "totaldiscs"
      then setdefaultAppend (if mdHas md "totaltracks"
        then setdefaultAppend (mainPass ctx md) "TRACKTOTAL" (mdGet md "totaltracks")
        else mainPass ctx md) "DISCTOTAL" (mdGet md "totaldiscs")
      else (if mdHas md "totaltracks"
        then setdefaultAppend (mainPass ctx md) "TRACKTOTAL" (mdGet md "totaltracks")
        else mainPass ctx md))).map Prod.fst, upperStr k2 = k2 := by
    intro k2 h
    cases htd : mdHas md "totaldiscs" <;> rw [htd] at h
    · exact ht2 k2 (by simpa using h)
    · rcases mem_keys_setdefaultAppend _ _ _ _ (by simpa using h) with h | h
      · exact ht2 k2 h
      · rw [h]; decide
  rw [saveTags] at hk
  cases isFlac <;> simp only [if_true, if_false, Bool.false_eq_true] at hk
  · rcases mem_keys_picsFold _ _ _ hk with h | h
    · exact ht3 k h
    · rw [h]; decide
  · exact ht3 k hk

/-- C9, witness: the rating key written for email `joe@x.com` is itself
upper-case, and that save run emits exactly `RATING:JOE@X.COM`. -/
theorem save_names_uppercased_witness :
    upperStr "RATING:JOE@X.COM" = "RATING:JOE@X.COM" ∧
    saveTags ⟨"joe@x.com", id, id, id⟩ [("~rating", "5")] false []
      = [("RATING:JOE@X.COM", ["5"])] :=
  ⟨(save_names_uppercased ⟨"joe@x.com", id, id, id⟩ [("~rating", "5")] false []).1
      "RATING:JOE@X.COM" (by decide),
   (save_names_uppercased ⟨"", id, id, id⟩ [] false []).2⟩

theorem parenLoop_matched (v : List Char) :
    ∀ (s c s2 : Nat), 0 < c → parenLoop v c s = (0, s2) → 0 < s2 →
      v.getD (s2 + 1) ' ' = '(' := by
  intro s
  induction s with
  | zero =>
    intro c s2 hc h hs2
    cases c with
    | zero => exact absurd hc (lt_irrefl 0)
    | succ c0 =>
      simp only [parenLoop] at h
      exact absurd (congrArg Prod.fst h) (by simp)
  | succ s ih =>
    intro c s2 hc h hs2
    cases c with
    | zero => exact absurd hc (lt_irrefl 0)
    | succ c0 =>
      simp only [parenLoop] at h
      by_cases h1 : v.getD (s + 1) ' ' = ')'
      · rw [if_pos h1] at h
        exact ih (c0 + 2) s2 (by omega) h hs2
      · rw [if_neg h1] at h
        by_cases h2 : v.getD (s + 1) ' ' = '('
        · rw [if_pos h2] at h
          cases c0 with
          | zero =>
            simp only [parenLoop] at h
            have hs : s = s2 := congrArg Prod.snd h
            rw [← hs]
            exact h2
          | succ c1 => exact ih (c1 + 1) s2 (by omega) h hs2
        · rw [if_neg h2] at h
          exact ih (c0 + 1) s2 (by omega) h hs2

/-- C10.  The load-direction parenthesis scan for `performer`/`comment`
values ending in `)`: when the scan's final cursor `start` is `0` —
which covers both a matching `(` found at string index 1 (e.g.
`"X(Piano)"`, final state `(0, 0)`) and no opener found with the cursor
exhausted at index 0 (e.g. `"(Piano)"`, final state `(1, 0)`) — no role
is split out: the internal name is the bare `performer:`/`comment:` and
the value is unchanged.  A split happens exactly when the final `start`
is positive, i.e. the matched `(` sits at index `start + 1 ≥ 2`; the
role is `value[start+2:-1]` and the stored value is truncated to
`value[:start]`, which also removes the character at index `start`
immediately before the `(`. -/
theorem paren_scan_roles (ctx : Ctx) (hTT hTD : Bool) (name value : String)
    (hname : name = "performer" ∨ name = "comment")
    (hval : value.data.getLast? = some ')') :
    ((parenLoop value.data 1 (value.data.length - 2)).2 = 0 →
      normalizeIn ctx hTT hTD name value = .field (name ++ ":") value) ∧
    (∀ s, parenLoop value.data 1 (value.data.length - 2) = (0, s + 1) →
      value.data.getD (s + 2) ' ' = '(' ∧
      normalizeIn ctx hTT hTD name value =
        .field (name ++ ":"
            ++ String.mk ((value.data.drop (s + 3)).take (value.data.length - 1 - (s + 3))))
          (String.mk (value.data.take (s + 1)))) := by
  have hni : normalizeIn ctx hTT hTD name value = performerIn name value := by
    rcases hname with rfl | rfl
    · unfold normalizeIn
      rw [if_neg (by decide), if_pos (Or.inl rfl)]
    · unfold normalizeIn
      rw [if_neg (by decide), if_pos (Or.inr rfl)]
  constructor
  · intro h0
    rw [hni]
    unfold performerIn
    rw [if_pos hval, if_neg (by omega)]
  · intro s hs
    refine ⟨parenLoop_matched value.data (value.data.length - 2) 1 (s + 1) (by omega) hs
      (by omega), ?_⟩
    rw [hni]
    unfold performerIn
    rw [if_pos hval, if_pos (by rw [hs]; exact Nat.succ_pos s), hs]

/-- C10, witness: `"(Piano)"` (opener at index 0) and `"X(Piano)"`
(opener at index 1) both end the scan with `start = 0` and are left
unsplit; `"ab(P)"` has its matched opener at index 2 (final state
`(0, 1)`), so the role `P` is split out and the character `b` directly
before the opener is removed along with it. -/
theorem paren_scan_roles_witness :
    ((parenLoop "(Piano)".data 1 ("(Piano)".data.length - 2)).2 = 0 ∧
      normalizeIn ⟨"", id, id, id⟩ false false "performer" "(Piano)"
        = .field "performer:" "(Piano)") ∧
    ((parenLoop "X(Piano)".data 1 ("X(Piano)".data.length - 2)).2 = 0 ∧
      normalizeIn ⟨"", id, id, id⟩ false false "performer" "X(Piano)"
        = .field "performer:" "X(Piano)") ∧
    ("ab(P)".data.getD 2 ' ' = '(' ∧
      normalizeIn ⟨"", id, id, id⟩ false false "comment" "ab(P)" = .field "comment:P" "a") :=
  ⟨⟨by decide,
    (paren_scan_roles ⟨"", id, id, id⟩ false false "performer" "(Piano)" (Or.inl rfl)
        (by decide)).1 (by decide)⟩,
   ⟨by decide,
    (paren_scan_roles ⟨"", id, id, id⟩ false false "performer" "X(Piano)" (Or.inl rfl)
        (by decide)).1 (by decide)⟩,
   (paren_scan_roles ⟨"", id, id, id⟩ false false "comment" "ab(P)" (Or.inr rfl)
      (by decide)).2 0 (by decide)⟩

end Vorbis
